import Mathlib

/-!
# slowterm: a shallow embedding of `slowterm.go`

The development has three parts.

* `copyWithDelay` (the rate-limited pump): the loop of `slowterm.go:66-80`, run against an
  explicit environment that says which reads and writes succeed and how long each
  `io.CopyN` call takes.  Durations are Go `time.Duration` values: signed 64-bit
  nanosecond counts, modelled as `Int` with explicit wrap-around.
* `sleepDuration` (the interval of `slowterm.go:57`): binary64 arithmetic is modelled
  exactly, by rounding fractions of naturals to 53 significant bits (ties to even).
* `slowterm` and `main`: the sequence of effects of the main goroutine, with Go's
  `defer` stack made explicit.
-/

namespace Slowterm

/-! ## Durations

A Go `time.Duration` is an `int64` count of nanoseconds.  It is modelled as an `Int`, and
the one operation on durations that can overflow, the subtraction in `copyWithDelay`, wraps
around explicitly. -/

/-- The constant `time.Second`. -/
def Second : Int := 1000000000

/-- Largest `time.Duration` (`1<<63 - 1`). -/
def maxDuration : Int := 2 ^ 63 - 1

/-- Smallest `time.Duration` (`-1 << 63`). -/
def minDuration : Int := -(2 ^ 63)

/-- Two's-complement wrap-around of an integer result into the `int64` range. -/
def wrap64 (x : Int) : Int := (x + 2 ^ 63) % 2 ^ 64 - 2 ^ 63

/-- The expression `after.Sub(before)` for two readings of the monotonic clock, `after` being
`gap` nanoseconds later than `before`: the difference, saturated at `maxDuration`. -/
def sub (gap : Nat) : Int := if (gap : Int) ≤ maxDuration then gap else maxDuration

/-- The test `d.Seconds() > 0`.  `Duration.Seconds` returns
`float64(d / Second) + float64(d % Second) / 1e9` with Go's truncating `/` and `%`, so both
summands carry the sign of `d`, and the sum is positive exactly when one of them is. -/
def secondsPositive (d : Int) : Bool :=
  decide (0 < Int.tdiv d Second) || decide (0 < Int.tmod d Second)

/-! ## The pump `copyWithDelay` -/

/-- One byte of a stream. -/
abbrev Byte := UInt8

/-- The environment one pump runs in.  Calls of `io.CopyN(t, s, 1)` are numbered from 0. -/
structure PumpEnv where
  /-- Does the read of call `k` succeed, provided the source still has a byte?  (At the end
  of the source every read fails with end-of-stream.) -/
  readOk : Nat → Bool
  /-- Does the write of call `k` succeed? -/
  writeOk : Nat → Bool
  /-- Nanoseconds of wall-clock time call `k` takes. -/
  xfer : Nat → Nat

/-- Which half of a failed `io.CopyN(t, s, 1)` returned the error. -/
inductive Side where
  | read
  | write
  deriving DecidableEq, Repr

/-- What one iteration of the loop of `copyWithDelay` did. -/
inductive Iteration where
  /-- The call `io.CopyN` moved byte `b`; `after` is the clock reading of line 73, in
  nanoseconds since the pump started; `elapsed` is `after.Sub(before)`; `slept` is the
  argument of the `time.Sleep` call, or `none` when `time.Sleep` was not called. -/
  | transferred (b : Byte) (after : Int) (elapsed : Int) (slept : Option Int)
  /-- The call `io.CopyN` returned an error and the loop was left by `break`. -/
  | failed (side : Side)
  deriving DecidableEq, Repr

/-- The observable state of a pump. -/
structure PumpState where
  /-- Bytes written to the destination `t`, oldest first. -/
  written : List Byte
  /-- Nanoseconds of wall-clock time since the pump was started. -/
  clock : Int
  /-- The iterations performed, oldest first. -/
  log : List Iteration
  deriving DecidableEq, Repr

/-- The state in which a pump starts. -/
def PumpState.init : PumpState := ⟨[], 0, []⟩

/-- The `break` of `slowterm.go:70`, taken after call `k` failed on `side`. -/
def leave (env : PumpEnv) (k : Nat) (side : Side) (st : PumpState) : PumpState :=
  { st with clock := st.clock + env.xfer k, log := st.log ++ [Iteration.failed side] }

/-- Lines 73-78 of `slowterm.go`: the bookkeeping after call `k` moved byte `b`.  The clock
advances by the duration of the call and by the sleep, which lasts exactly as long as
requested; nothing else takes time. -/
def afterTransfer (env : PumpEnv) (delay : Int) (k : Nat) (b : Byte) (st : PumpState) :
    PumpState :=
  let elapsed := sub (env.xfer k)
  let toSleep := wrap64 (delay - elapsed)
  if secondsPositive toSleep then
    { written := st.written ++ [b]
      clock := st.clock + env.xfer k + toSleep
      log := st.log ++ [Iteration.transferred b (st.clock + env.xfer k) elapsed (some toSleep)] }
  else
    { written := st.written ++ [b]
      clock := st.clock + env.xfer k
      log := st.log ++ [Iteration.transferred b (st.clock + env.xfer k) elapsed none] }

/-- The loop of `copyWithDelay(t, s, delay)`, from call number `k` on, with the bytes the
source `s` still holds as the recursion argument: every successful call consumes one of them,
and the call made when none is left fails with end-of-stream. -/
def copyLoop (env : PumpEnv) (delay : Int) : Nat → List Byte → PumpState → PumpState
  | k, [], st => leave env k Side.read st
  | k, b :: rest, st =>
    if env.readOk k then
      if env.writeOk k then
        copyLoop env delay (k + 1) rest (afterTransfer env delay k b st)
      else leave env k Side.write st
    else leave env k Side.read st

/-- The function `copyWithDelay(t, s, delay)` of `slowterm.go:66-80` on a source holding the
bytes `s`. -/
def copyWithDelay (env : PumpEnv) (delay : Int) (s : List Byte) : PumpState :=
  copyLoop env delay 0 s PumpState.init

/-- Is the iteration one that moved a byte? -/
def Iteration.isTransfer : Iteration → Bool
  | Iteration.transferred _ _ _ _ => true
  | Iteration.failed _ => false

/-! ## The interval `sleepDuration` (`slowterm.go:57`)

`time.Duration(1.0 / float64(baudrate) * float64(time.Second))` is evaluated in binary64.  A
positive binary64 value is kept as a fraction of naturals whose denominator is a power of two;
`roundF64` is the rounding every binary64 operation applies to its exact result.  All values
that occur lie between `2 ^ (-64)` and `2 ^ 64`, far inside the normal range, so neither
overflow nor subnormal numbers arise. -/

/-- The nearest integer to `n / d`, ties going to the even one. -/
def roundHalfEven (n d : Nat) : Nat :=
  let q := n / d
  let r := n % d
  if 2 * r < d then q
  else if d < 2 * r then q + 1
  else if q % 2 = 0 then q else q + 1

/-- Helper of `ilog2`: at most `fuel` halvings. -/
def log2Fuel : Nat → Nat → Nat
  | 0, _ => 0
  | fuel + 1, n => if 2 ≤ n then log2Fuel fuel (n / 2) + 1 else 0

/-- The position of the leading bit of `n` (`0` for `n = 0`). -/
def ilog2 (n : Nat) : Nat := log2Fuel n n

/-- The binary64 number nearest to `p / q` (round to nearest, ties to even), as a fraction.
The quotient is scaled by a power of two into the range from `2 ^ 52` to `2 ^ 53`, where the
binary64 numbers are exactly the integers, rounded there, and scaled back. -/
def roundF64 (p q : Nat) : Nat × Nat :=
  let up := ilog2 q + 52 - ilog2 p
  let down := ilog2 p - (ilog2 q + 52)
  let n := p * 2 ^ up
  let d := q * 2 ^ down
  if n < 2 ^ 52 * d then (roundHalfEven (2 * n) d * 2 ^ down, 2 ^ (up + 1))
  else (roundHalfEven n d * 2 ^ down, 2 ^ up)

/-- The binary64 value of `1.0 / float64(r) * float64(time.Second)` for `r > 0`: the
conversion of `r`, the quotient and the product (by `1e9`, which is exact) are each rounded. -/
def sleepFloat (r : Nat) : Nat × Nat :=
  let x := roundF64 r 1
  let y := roundF64 x.2 x.1
  roundF64 (y.1 * 1000000000) y.2

/-- The conversion `time.Duration(...)` of `sleepFloat r`: truncation to an integer. -/
def sleepNat (r : Nat) : Nat := (sleepFloat r).1 / (sleepFloat r).2

/-- The rational number a fraction of naturals stands for. -/
def fracVal (x : Nat × Nat) : ℚ := (x.1 : ℚ) / (x.2 : ℚ)

/-- The value of `sleepDuration` in `slowterm(baudrate, cmd)`.  Binary64 arithmetic is
symmetric in the sign and the conversion truncates toward zero, so a negative rate gives the
negated interval of its absolute value.  For `baudrate = 0` the quotient is `+Inf`, whose
conversion to `int64` Go leaves to the implementation: it is the parameter `infDuration`. -/
def sleepDuration (infDuration : Int) (baudrate : Int) : Int :=
  if 0 < baudrate then (sleepNat baudrate.toNat : Int)
  else if baudrate < 0 then -(sleepNat (-baudrate).toNat : Int)
  else infDuration

/-! ## The session: `slowterm` and `main` -/

/-- A Go `error`, by its message. -/
abbrev Error := String

/-- The saved terminal state `*term.State` that `term.MakeRaw` returns. -/
abbrev TermState := Nat

/-- The effects of the main goroutine, in program order. -/
inductive Effect where
  /-- The call `pty.Start(exec.Command(cmd[0], cmd[1:]...))`. -/
  | ptyStart (cmd : List String)
  /-- The call `signal.Notify(ch, syscall.SIGWINCH)`: the resize forwarder is armed. -/
  | signalNotify
  /-- The statement `go func() { for range ch { pty.InheritSize(os.Stdin, ptmx) } }()`. -/
  | goResize
  /-- The statement `ch <- syscall.SIGWINCH`: the synthetic notification. -/
  | sendWinch
  /-- The call `term.MakeRaw(int(os.Stdin.Fd()))`. -/
  | makeRaw
  /-- The statement `go copyWithDelay(ptmx, os.Stdin, sleepDuration)`. -/
  | goCopy (delay : Int)
  /-- The call `copyWithDelay(os.Stdout, ptmx, sleepDuration)`, with the state it ended in. -/
  | copy (delay : Int) (run : PumpState)
  /-- The call `term.Restore(int(os.Stdin.Fd()), oldState)`. -/
  | restore (oldState : TermState)
  /-- The call `signal.Stop(ch)`. -/
  | signalStop
  /-- The call `close(ch)`. -/
  | closeCh
  /-- The call `ptmx.Close()`. -/
  | ptyClose
  /-- The call `fmt.Fprintln(os.Stderr, err)` in `main`. -/
  | printErr (err : Error)
  /-- The call `printHelp()` in `main`. -/
  | printHelp
  deriving DecidableEq, Repr

/-- Is the effect a call of `term.Restore`? -/
def Effect.isRestore : Effect → Bool
  | Effect.restore _ => true
  | _ => false

/-- Is the effect the start or the run of a relay pump? -/
def Effect.isPump : Effect → Bool
  | Effect.goCopy _ => true
  | Effect.copy _ _ => true
  | _ => false

/-- What the session runs against. -/
structure Env where
  /-- The error of `pty.Start` for a command, `none` when the session starts. -/
  ptyStart : List String → Option Error
  /-- The result of `term.MakeRaw` on standard input. -/
  makeRaw : Except Error TermState
  /-- The bytes the child writes to the pty before the pty reports end-of-stream. -/
  ptyOut : List Byte
  /-- The environment of the output pump (pty to standard output). -/
  pump : PumpEnv
  /-- The `int64` that the conversion of `+Inf` yields on this platform. -/
  infDuration : Int

/-- How a function was left. -/
inductive Outcome where
  /-- By `return`, with the `error` result (`none` is `nil`). -/
  | returned (err : Option Error)
  /-- By a panic that nothing recovers. -/
  | panicked (msg : Error)
  deriving DecidableEq, Repr

/-- The effects of a run, oldest first, and how it ended. -/
structure Run where
  effects : List Effect
  outcome : Outcome
  deriving DecidableEq, Repr

/-- Running the deferred calls when a function is left: the stack of `defer` statements, the
one registered last on top, is run from the top. -/
def runDeferred (stack : List (List Effect)) : List Effect := stack.flatten

/-- The function `slowterm(baudrate, cmd)` of `slowterm.go:24-64`. -/
def slowterm (env : Env) (baudrate : Int) (cmd : List String) : Run :=
  match cmd with
  | [] => ⟨[], Outcome.panicked "runtime error: slice bounds out of range [1:0]"⟩
  | _ :: _ =>
    match env.ptyStart cmd with
    | some err => ⟨[Effect.ptyStart cmd], Outcome.returned (some err)⟩
    | none =>
      let deferred := [[Effect.ptyClose]]
      let deferred := [Effect.signalStop, Effect.closeCh] :: deferred
      let done := [Effect.ptyStart cmd, Effect.signalNotify, Effect.goResize, Effect.sendWinch,
        Effect.makeRaw]
      match env.makeRaw with
      | Except.error err => ⟨done ++ runDeferred deferred, Outcome.panicked err⟩
      | Except.ok oldState =>
        let deferred := [Effect.restore oldState] :: deferred
        let delay := sleepDuration env.infDuration baudrate
        let done := done ++ [Effect.goCopy delay,
          Effect.copy delay (copyWithDelay env.pump delay env.ptyOut)]
        ⟨done ++ runDeferred deferred, Outcome.returned none⟩

/-- The variable `defaultCmd` (`slowterm.go:21`). -/
def defaultCmd : List String := ["/bin/bash"]

/-- The variable `defaultBaudrate` (`slowterm.go:22`). -/
def defaultBaudrate : Int := 9600

/-- The output of `printHelp()` (`slowterm.go:82-97`), one string for each call. -/
def printHelp : List String :=
  ["NAME\n",
   "\tslowterm - Slow down your console\n\n",
   "SYNOPSIS\n",
   "\tslowterm [-b BAUDRATE] [COMMAND ARGS...]\n\n",
   "DESCRIPTION\n",
   "\tRun shell or given command with emulated baudrate to slow down input\n",
   "\tand output. Why? Because apparently suffering builds character.\n\n",
   "OPTIONS\n",
   "  -b BAUDRATE\n",
   "\tSet emulated baudrate (default " ++ toString defaultBaudrate ++ ")\n\n",
   "  COMMAND ARGS\n",
   "\tCommand to run with arguments. By default slowterm will try to run\n",
   "\tcurrent user default shell (from $SHELL) or /usr/bin/bash if $SHELL is\n",
   "\tis empty.\n\n\n"]

/-- The command line and environment `main` reads. -/
structure Invocation where
  /-- The value of the flag `-b` (`defaultBaudrate` when absent). -/
  baudrate : Int
  /-- The value of the flag `-help`. -/
  help : Bool
  /-- The positional arguments, `flag.Args()`. -/
  args : List String
  /-- The value of `os.Getenv("SHELL")`. -/
  shell : String

/-- Lines 113-121 of `slowterm.go`: the command `main` hands to `slowterm`. -/
def resolveCmd (vals : List String) (shell : String) : List String :=
  if vals.length > 0 then vals
  else if shell ≠ "" then [shell]
  else defaultCmd

/-- The function `main` of `slowterm.go:99-126`, after `flag.Parse()`. -/
def main (env : Env) (inv : Invocation) : Run :=
  if inv.help then ⟨[Effect.printHelp], Outcome.returned none⟩
  else
    let run := slowterm env inv.baudrate (resolveCmd inv.args inv.shell)
    match run.outcome with
    | Outcome.returned (some err) =>
      ⟨run.effects ++ [Effect.printErr err], Outcome.returned none⟩
    | _ => run

/-! ## Concrete environments -/

/-- A pump environment without I/O errors in which call `k` takes `t k` nanoseconds. -/
def PumpEnv.reliable (t : Nat → Nat) : PumpEnv := ⟨fun _ => true, fun _ => true, t⟩

/-- A session that starts, enters raw mode (saved state `7`), and whose child prints `out`
through an instant, reliable pump; `+Inf` converts as on amd64. -/
def Env.good (out : List Byte) : Env :=
  ⟨fun _ => none, Except.ok 7, out, PumpEnv.reliable fun _ => 0, minDuration⟩

/-- A session whose `pty.Start` fails with the message `msg`. -/
def Env.noPty (msg : Error) : Env :=
  ⟨fun _ => some msg, Except.ok 7, [], PumpEnv.reliable fun _ => 0, minDuration⟩

/-! ## Durations: arithmetic facts -/

theorem wrap64_eq (x : Int) (h₁ : minDuration ≤ x) (h₂ : x ≤ maxDuration) : wrap64 x = x := by
  simp only [minDuration, maxDuration] at h₁ h₂
  simp only [wrap64]
  norm_num at h₁ h₂ ⊢
  omega

theorem tmod_neg_left (a b : Int) : Int.tmod (-a) b = -Int.tmod a b := by
  have h₁ := Int.tdiv_add_tmod (-a) b
  have h₂ := Int.tdiv_add_tmod a b
  rw [Int.neg_tdiv] at h₁
  have h₃ : b * -(a.tdiv b) = -(b * a.tdiv b) := by ring
  rw [h₃] at h₁
  omega

theorem secondsPositive_iff (d : Int) : secondsPositive d = true ↔ 0 < d := by
  simp only [secondsPositive, Second]
  rw [Bool.or_eq_true, decide_eq_true_iff, decide_eq_true_iff]
  rcases le_or_lt 0 d with h | h
  · rw [Int.tdiv_eq_ediv h (by norm_num), Int.tmod_eq_emod h (by norm_num)]
    omega
  · have hd : d = -(-d) := by omega
    have h0 : 0 ≤ -d := by omega
    rw [hd, Int.neg_tdiv, tmod_neg_left, Int.tdiv_eq_ediv h0 (by norm_num),
      Int.tmod_eq_emod h0 (by norm_num)]
    omega

theorem sub_nonneg (gap : Nat) : 0 ≤ sub gap := by
  simp only [sub, maxDuration]
  split_ifs <;> omega

theorem sub_le_max (gap : Nat) : sub gap ≤ maxDuration := by
  simp only [sub, maxDuration]
  split_ifs <;> omega

theorem sub_le_gap (gap : Nat) : sub gap ≤ (gap : Int) := by
  simp only [sub, maxDuration]
  split_ifs <;> omega

/-! ## The pump: one iteration -/

theorem toSleep_eq (delay : Int) (gap : Nat) (h₀ : 0 ≤ delay) (h₁ : delay ≤ maxDuration) :
    wrap64 (delay - sub gap) = delay - sub gap := by
  have h₂ := sub_nonneg gap
  have h₃ := sub_le_max gap
  apply wrap64_eq
  · simp only [minDuration, maxDuration] at *
    omega
  · omega

/-- For an interval in the range of a non-negative `time.Duration`, the bookkeeping after a
transfer sleeps for `delay - elapsed` when that is positive and not at all otherwise. -/
theorem afterTransfer_eq (env : PumpEnv) (delay : Int) (k : Nat) (b : Byte) (st : PumpState)
    (h₀ : 0 ≤ delay) (h₁ : delay ≤ maxDuration) :
    afterTransfer env delay k b st =
      if sub (env.xfer k) < delay then
        { written := st.written ++ [b]
          clock := st.clock + env.xfer k + (delay - sub (env.xfer k))
          log := st.log ++ [Iteration.transferred b (st.clock + env.xfer k) (sub (env.xfer k))
            (some (delay - sub (env.xfer k)))] }
      else
        { written := st.written ++ [b]
          clock := st.clock + env.xfer k
          log := st.log ++ [Iteration.transferred b (st.clock + env.xfer k) (sub (env.xfer k))
            none] } := by
  simp only [afterTransfer, toSleep_eq delay (env.xfer k) h₀ h₁]
  by_cases h : sub (env.xfer k) < delay
  · have hp : secondsPositive (delay - sub (env.xfer k)) = true :=
      (secondsPositive_iff _).2 (by omega)
    simp [hp, h]
  · have hp : ¬ secondsPositive (delay - sub (env.xfer k)) = true := by
      rw [secondsPositive_iff]; omega
    simp [hp, h]

theorem afterTransfer_written (env : PumpEnv) (delay : Int) (k : Nat) (b : Byte)
    (st : PumpState) : (afterTransfer env delay k b st).written = st.written ++ [b] := by
  simp only [afterTransfer]
  split_ifs <;> rfl

theorem afterTransfer_log (env : PumpEnv) (delay : Int) (k : Nat) (b : Byte)
    (st : PumpState) : ∃ it, it.isTransfer = true ∧
      (afterTransfer env delay k b st).log = st.log ++ [it] := by
  simp only [afterTransfer]
  split_ifs
  · exact ⟨Iteration.transferred _ _ _ _, rfl, rfl⟩
  · exact ⟨Iteration.transferred _ _ _ _, rfl, rfl⟩

/-! ## The pump: the whole loop -/

theorem copyLoop_written_prefix (env : PumpEnv) (delay : Int) :
    ∀ (s : List Byte) (k : Nat) (st : PumpState),
      ∃ t, t <+: s ∧ (copyLoop env delay k s st).written = st.written ++ t := by
  intro s
  induction s with
  | nil => intro k st; exact ⟨[], List.prefix_refl _, by simp [copyLoop, leave]⟩
  | cons b rest ih =>
    intro k st
    simp only [copyLoop]
    split_ifs
    · obtain ⟨t, ht, hw⟩ := ih (k + 1) (afterTransfer env delay k b st)
      refine ⟨b :: t, ?_, ?_⟩
      · exact (List.prefix_cons_inj b).2 ht
      · rw [hw, afterTransfer_written]; simp
    · exact ⟨[], List.nil_prefix, by simp [leave]⟩
    · exact ⟨[], List.nil_prefix, by simp [leave]⟩

theorem copyLoop_all_ok (env : PumpEnv) (delay : Int) :
    ∀ (s : List Byte) (k : Nat) (st : PumpState),
      (∀ i, i < s.length → env.readOk (k + i) = true ∧ env.writeOk (k + i) = true) →
      (copyLoop env delay k s st).written = st.written ++ s ∧
      ∃ its, (copyLoop env delay k s st).log = st.log ++ its ++ [Iteration.failed Side.read] ∧
        its.length = s.length ∧ ∀ it ∈ its, it.isTransfer = true := by
  intro s
  induction s with
  | nil =>
    intro k st _
    exact ⟨by simp [copyLoop, leave], [], by simp [copyLoop, leave], rfl, by simp⟩
  | cons b rest ih =>
    intro k st hok
    have h0 := hok 0 (by simp)
    simp only [Nat.add_zero] at h0
    have hrest : ∀ i, i < rest.length →
        env.readOk (k + 1 + i) = true ∧ env.writeOk (k + 1 + i) = true := by
      intro i hi
      have := hok (i + 1) (by simp; omega)
      rwa [show k + (i + 1) = k + 1 + i by omega] at this
    obtain ⟨hw, its, hl, hlen, hall⟩ := ih (k + 1) (afterTransfer env delay k b st) hrest
    obtain ⟨it, hit, hlog⟩ := afterTransfer_log env delay k b st
    simp only [copyLoop, h0.1, h0.2, if_true]
    refine ⟨by rw [hw, afterTransfer_written]; simp, it :: its, ?_, by simp [hlen], ?_⟩
    · rw [hl, hlog]; simp
    · intro x hx
      rcases List.mem_cons.1 hx with rfl | hx
      · exact hit
      · exact hall x hx

/-! ## The pump: sleeping and timing -/

theorem getElem?_snoc {α : Type} (l : List α) (x y : α) (i : Nat)
    (h : (l ++ [x])[i]? = some y) : l[i]? = some y ∨ (i = l.length ∧ x = y) := by
  rcases Nat.lt_or_ge i l.length with hlt | hge
  · left
    rwa [List.getElem?_append_left hlt] at h
  · right
    rw [List.getElem?_append_right hge] at h
    rcases Nat.eq_or_lt_of_le hge with heq | hgt
    · subst heq
      simpa using h
    · have : i - l.length = (i - l.length - 1) + 1 := by omega
      rw [this] at h
      simp at h

theorem leave_entry (env : PumpEnv) (k : Nat) (side : Side) (st : PumpState) (i : Nat)
    (b : Byte) (a e : Int) (sl : Option Int)
    (h : (leave env k side st).log[i]? = some (Iteration.transferred b a e sl)) :
    st.log[i]? = some (Iteration.transferred b a e sl) := by
  simp only [leave] at h
  rcases getElem?_snoc _ _ _ _ h with h | ⟨_, h⟩
  · exact h
  · cases h

theorem afterTransfer_entry (env : PumpEnv) (delay : Int) (k : Nat) (x : Byte) (st : PumpState)
    (h₀ : 0 ≤ delay) (h₁ : delay ≤ maxDuration) (i : Nat)
    (b : Byte) (a e : Int) (sl : Option Int)
    (h : (afterTransfer env delay k x st).log[i]? = some (Iteration.transferred b a e sl)) :
    st.log[i]? = some (Iteration.transferred b a e sl) ∨
      (i = st.log.length ∧ b = x ∧ a = st.clock + env.xfer k ∧ e = sub (env.xfer k) ∧
        sl = if e < delay then some (delay - e) else none) := by
  rw [afterTransfer_eq env delay k x st h₀ h₁] at h
  split_ifs at h with hlt
  · rcases getElem?_snoc _ _ _ _ h with h | ⟨hi, h⟩
    · exact Or.inl h
    · injection h with hb ha he hs
      subst hb ha he hs
      exact Or.inr ⟨hi, rfl, rfl, rfl, by simp [hlt]⟩
  · rcases getElem?_snoc _ _ _ _ h with h | ⟨hi, h⟩
    · exact Or.inl h
    · injection h with hb ha he hs
      subst hb ha he hs
      exact Or.inr ⟨hi, rfl, rfl, rfl, by simp [hlt]⟩

theorem afterTransfer_log_length (env : PumpEnv) (delay : Int) (k : Nat) (b : Byte)
    (st : PumpState) : (afterTransfer env delay k b st).log.length = st.log.length + 1 := by
  obtain ⟨it, _, h⟩ := afterTransfer_log env delay k b st
  rw [h]; simp

theorem afterTransfer_entry_any (env : PumpEnv) (delay : Int) (k : Nat) (x : Byte)
    (st : PumpState) (i : Nat) (b : Byte) (a e : Int) (sl : Option Int)
    (h : (afterTransfer env delay k x st).log[i]? = some (Iteration.transferred b a e sl)) :
    st.log[i]? = some (Iteration.transferred b a e sl) ∨
      (i = st.log.length ∧ e = sub (env.xfer k) ∧
        sl = if 0 < wrap64 (delay - e) then some (wrap64 (delay - e)) else none) := by
  simp only [afterTransfer] at h
  split_ifs at h with hp
  · rcases getElem?_snoc _ _ _ _ h with h | ⟨hi, h⟩
    · exact Or.inl h
    · injection h with hb ha he hs
      subst hb ha he hs
      rw [secondsPositive_iff] at hp
      exact Or.inr ⟨hi, rfl, by rw [if_pos hp]⟩
  · rcases getElem?_snoc _ _ _ _ h with h | ⟨hi, h⟩
    · exact Or.inl h
    · injection h with hb ha he hs
      subst hb ha he hs
      rw [secondsPositive_iff] at hp
      exact Or.inr ⟨hi, rfl, by rw [if_neg hp]⟩

/-- Every logged transfer of a run records the measured time of its call, and the sleep that
follows it is the wrapped difference `delay - elapsed` when that is positive, and no sleep
otherwise.  This holds for every `delay`. -/
theorem copyLoop_entries (env : PumpEnv) (delay : Int) :
    ∀ (s : List Byte) (k : Nat) (st : PumpState), st.log.length = k →
      (∀ (i : Nat) b a e sl, st.log[i]? = some (Iteration.transferred b a e sl) →
        e = sub (env.xfer i) ∧
          sl = if 0 < wrap64 (delay - e) then some (wrap64 (delay - e)) else none) →
      ∀ (i : Nat) b a e sl,
        (copyLoop env delay k s st).log[i]? = some (Iteration.transferred b a e sl) →
        e = sub (env.xfer i) ∧
          sl = if 0 < wrap64 (delay - e) then some (wrap64 (delay - e)) else none := by
  intro s
  induction s with
  | nil =>
    intro k st _ hst i b a e sl h
    exact hst i b a e sl (leave_entry _ _ _ _ _ _ _ _ _ h)
  | cons x rest ih =>
    intro k st hk hst i b a e sl h
    simp only [copyLoop] at h
    split_ifs at h
    · refine ih (k + 1) (afterTransfer env delay k x st) ?_ ?_ i b a e sl h
      · rw [afterTransfer_log_length, hk]
      · intro j b' a' e' sl' hj
        rcases afterTransfer_entry_any env delay k x st j b' a' e' sl' hj with hj | hj
        · exact hst j b' a' e' sl' hj
        · obtain ⟨hjk, he, hs⟩ := hj
          rw [hjk, hk]
          exact ⟨he, hs⟩
    · exact hst i b a e sl (leave_entry _ _ _ _ _ _ _ _ _ h)
    · exact hst i b a e sl (leave_entry _ _ _ _ _ _ _ _ _ h)

/-- The clock of a pump never runs ahead of the rate: after `n` bytes at least `n` intervals
have passed, and byte number `i` (from 0) was delivered no earlier than `i` intervals after
the start. -/
theorem copyLoop_timing (env : PumpEnv) (delay : Int) (h₀ : 0 ≤ delay)
    (h₁ : delay ≤ maxDuration) :
    ∀ (s : List Byte) (k : Nat) (st : PumpState), st.log.length = st.written.length →
      (st.written.length : Int) * delay ≤ st.clock →
      (∀ (i : Nat) b a e sl, st.log[i]? = some (Iteration.transferred b a e sl) →
        (i : Int) * delay ≤ a ∧ a ≤ st.clock) →
      ((copyLoop env delay k s st).written.length : Int) * delay ≤
          (copyLoop env delay k s st).clock ∧
        ∀ (i : Nat) b a e sl,
          (copyLoop env delay k s st).log[i]? = some (Iteration.transferred b a e sl) →
          (i : Int) * delay ≤ a ∧ a ≤ (copyLoop env delay k s st).clock := by
  intro s
  induction s with
  | nil =>
    intro k st _ hc hst
    simp only [copyLoop]
    refine ⟨by simp only [leave]; omega, ?_⟩
    intro i b a e sl h
    have := hst i b a e sl (leave_entry _ _ _ _ _ _ _ _ _ h)
    exact ⟨this.1, by simp only [leave]; omega⟩
  | cons x rest ih =>
    intro k st hlen hc hst
    have hleave : ∀ side,
        ((leave env k side st).written.length : Int) * delay ≤ (leave env k side st).clock ∧
        ∀ (i : Nat) b a e sl,
          (leave env k side st).log[i]? = some (Iteration.transferred b a e sl) →
          (i : Int) * delay ≤ a ∧ a ≤ (leave env k side st).clock := by
      intro side
      refine ⟨by simp only [leave]; omega, ?_⟩
      intro i b a e sl h
      have := hst i b a e sl (leave_entry _ _ _ _ _ _ _ _ _ h)
      exact ⟨this.1, by simp only [leave]; omega⟩
    simp only [copyLoop]
    split_ifs
    · have hg := sub_le_gap (env.xfer k)
      have hclock : st.clock + env.xfer k ≤ (afterTransfer env delay k x st).clock ∧
          st.clock + delay ≤ (afterTransfer env delay k x st).clock := by
        rw [afterTransfer_eq env delay k x st h₀ h₁]
        split_ifs with hlt
        · constructor
          · show st.clock + env.xfer k ≤ st.clock + env.xfer k + (delay - sub (env.xfer k))
            omega
          · show st.clock + delay ≤ st.clock + env.xfer k + (delay - sub (env.xfer k))
            omega
        · constructor
          · show st.clock + env.xfer k ≤ st.clock + env.xfer k
            omega
          · show st.clock + delay ≤ st.clock + env.xfer k
            omega
      apply ih (k + 1) (afterTransfer env delay k x st)
      · rw [afterTransfer_log_length, afterTransfer_written, hlen]; simp
      · rw [afterTransfer_written]
        simp only [List.length_append, List.length_singleton, Nat.cast_add, Nat.cast_one]
        have : ((st.written.length : Int) + 1) * delay = st.written.length * delay + delay := by
          ring
        omega
      · intro j b' a' e' sl' hj
        rcases afterTransfer_entry env delay k x st h₀ h₁ j b' a' e' sl' hj with hj | hj
        · have := hst j b' a' e' sl' hj
          exact ⟨this.1, by omega⟩
        · obtain ⟨hjk, _, ha, _, _⟩ := hj
          rw [hjk, hlen, ha]
          exact ⟨by omega, hclock.1⟩
    · exact hleave Side.write
    · exact hleave Side.read

/-! ## The interval: error bounds of binary64 rounding -/

theorem log2Fuel_spec : ∀ fuel n : Nat, n ≤ fuel → n ≠ 0 →
    2 ^ log2Fuel fuel n ≤ n ∧ n < 2 ^ (log2Fuel fuel n + 1) := by
  intro fuel
  induction fuel with
  | zero => intro n h h0; omega
  | succ f ih =>
    intro n h h0
    unfold log2Fuel
    split
    · rename_i h2
      have hle : n / 2 ≤ f := by omega
      have hne : n / 2 ≠ 0 := by omega
      obtain ⟨h1, h3⟩ := ih (n / 2) hle hne
      constructor
      · rw [pow_succ]; omega
      · rw [pow_succ]; omega
    · simp; omega

theorem ilog2_le (n : Nat) (h : n ≠ 0) : 2 ^ ilog2 n ≤ n :=
  (log2Fuel_spec n n le_rfl h).1

theorem lt_ilog2 (n : Nat) (h : n ≠ 0) : n < 2 ^ (ilog2 n + 1) :=
  (log2Fuel_spec n n le_rfl h).2

theorem roundHalfEven_spec (n d : Nat) (hd : 0 < d) :
    2 * (roundHalfEven n d * d) ≤ 2 * n + d ∧ 2 * n ≤ 2 * (roundHalfEven n d * d) + d := by
  have h1 := Nat.div_add_mod n d
  have h2 := Nat.mod_lt n hd
  have h3 : d * (n / d) = n / d * d := Nat.mul_comm _ _
  unfold roundHalfEven
  simp only
  split_ifs <;> simp only [Nat.add_mul, Nat.one_mul] at * <;> omega

theorem roundF64_spec (p q : Nat) (hp : 0 < p) (hq : 0 < q) :
    (roundF64 p q).1 * q * 2 ^ 53 ≤ (2 ^ 53 + 1) * (p * (roundF64 p q).2) ∧
    (2 ^ 53 - 1) * (p * (roundF64 p q).2) ≤ (roundF64 p q).1 * q * 2 ^ 53 := by
  have hlp := ilog2_le p (by omega)
  have hlq := lt_ilog2 q (by omega)
  unfold roundF64
  simp only
  generalize hup : ilog2 q + 52 - ilog2 p = up
  generalize hdown : ilog2 p - (ilog2 q + 52) = down
  have hsum : ilog2 p + up = ilog2 q + 52 + down := by omega
  have hd : 0 < q * 2 ^ down := by positivity
  -- 2^51 * d ≤ n
  have hlow : 2 ^ 51 * (q * 2 ^ down) ≤ p * 2 ^ up := by
    calc 2 ^ 51 * (q * 2 ^ down) ≤ 2 ^ 51 * (2 ^ (ilog2 q + 1) * 2 ^ down) := by
          apply Nat.mul_le_mul_left
          apply Nat.mul_le_mul_right
          exact hlq.le
      _ = 2 ^ (ilog2 q + 52 + down) := by ring
      _ = 2 ^ ilog2 p * 2 ^ up := by rw [← hsum, pow_add]
      _ ≤ p * 2 ^ up := Nat.mul_le_mul_right _ hlp
  split_ifs with hlt
  · obtain ⟨h1, h2⟩ := roundHalfEven_spec (2 * (p * 2 ^ up)) (q * 2 ^ down) hd
    simp only
    generalize roundHalfEven (2 * (p * 2 ^ up)) (q * 2 ^ down) = m at h1 h2 ⊢
    have e1 : m * 2 ^ down * q = m * (q * 2 ^ down) := by ring
    have e2 : p * 2 ^ (up + 1) = 2 * (p * 2 ^ up) := by ring
    rw [e1, e2]
    generalize m * (q * 2 ^ down) = A at h1 h2 ⊢
    generalize p * 2 ^ up = N at h1 h2 hlow hlt ⊢
    generalize q * 2 ^ down = D at h1 h2 hlow hlt ⊢
    norm_num at *
    omega
  · obtain ⟨h1, h2⟩ := roundHalfEven_spec (p * 2 ^ up) (q * 2 ^ down) hd
    simp only
    generalize roundHalfEven (p * 2 ^ up) (q * 2 ^ down) = m at h1 h2 ⊢
    have e1 : m * 2 ^ down * q = m * (q * 2 ^ down) := by ring
    rw [e1]
    generalize m * (q * 2 ^ down) = A at h1 h2 ⊢
    generalize p * 2 ^ up = N at h1 h2 hlow hlt ⊢
    generalize q * 2 ^ down = D at h1 h2 hlow hlt ⊢
    norm_num at *
    omega

theorem roundF64_pos (p q : Nat) (hp : 0 < p) (hq : 0 < q) :
    0 < (roundF64 p q).1 ∧ 0 < (roundF64 p q).2 := by
  have h2 : 0 < (roundF64 p q).2 := by
    unfold roundF64
    simp only
    split_ifs <;> positivity
  refine ⟨?_, h2⟩
  have h := (roundF64_spec p q hp hq).2
  rcases Nat.eq_zero_or_pos (roundF64 p q).1 with h0 | h0
  · rw [h0] at h
    have : 0 < p * (roundF64 p q).2 := Nat.mul_pos hp h2
    norm_num at h
    omega
  · exact h0

theorem roundF64_val (p q : Nat) (hp : 0 < p) (hq : 0 < q) :
    (1 - 1 / 2 ^ 53) * ((p : ℚ) / q) ≤ fracVal (roundF64 p q) ∧
    fracVal (roundF64 p q) ≤ (1 + 1 / 2 ^ 53) * ((p : ℚ) / q) := by
  obtain ⟨h1, h2⟩ := roundF64_spec p q hp hq
  obtain ⟨_, hQ⟩ := roundF64_pos p q hp hq
  have hq' : (0 : ℚ) < q := by exact_mod_cast hq
  have hQ' : (0 : ℚ) < (roundF64 p q).2 := by exact_mod_cast hQ
  have h1' : ((roundF64 p q).1 : ℚ) * q * 2 ^ 53 ≤ (2 ^ 53 + 1) * (p * (roundF64 p q).2) := by
    exact_mod_cast h1
  have h2' : ((2 : ℚ) ^ 53 - 1) * (p * (roundF64 p q).2) ≤ (roundF64 p q).1 * q * 2 ^ 53 := by
    have : ((2 ^ 53 - 1 : ℕ) : ℚ) = (2 : ℚ) ^ 53 - 1 := by norm_num
    rw [← this]
    exact_mod_cast h2
  unfold fracVal
  constructor
  · rw [← mul_div_assoc, div_le_div_iff₀ hq' hQ']
    linarith
  · rw [← mul_div_assoc, div_le_div_iff₀ hQ' hq']
    linarith

theorem sleepNat_eq (r : Nat) : sleepNat r = (sleepFloat r).1 / (sleepFloat r).2 := rfl

theorem sleepFloat_pos (r : Nat) (hr : 0 < r) : 0 < (sleepFloat r).1 ∧ 0 < (sleepFloat r).2 := by
  obtain ⟨hx1, hx2⟩ := roundF64_pos r 1 hr one_pos
  obtain ⟨hy1, hy2⟩ := roundF64_pos _ _ hx2 hx1
  unfold sleepFloat
  simp only
  exact roundF64_pos _ _ (Nat.mul_pos hy1 (by norm_num)) hy2

theorem sleepFloat_val (r : Nat) (hr : 0 < r) :
    (1 - 1 / 2 ^ 53) ^ 2 * 10 ^ 9 ≤ fracVal (sleepFloat r) * ((1 + 1 / 2 ^ 53) * r) ∧
    fracVal (sleepFloat r) * ((1 - 1 / 2 ^ 53) * r) ≤ (1 + 1 / 2 ^ 53) ^ 2 * 10 ^ 9 := by
  obtain ⟨hx1, hx2⟩ := roundF64_pos r 1 hr one_pos
  obtain ⟨hy1, hy2⟩ := roundF64_pos _ _ hx2 hx1
  obtain ⟨hxl, hxu⟩ := roundF64_val r 1 hr one_pos
  obtain ⟨hyl, hyu⟩ := roundF64_val _ _ hx2 hx1
  obtain ⟨hzl, hzu⟩ := roundF64_val ((roundF64 (roundF64 r 1).2 (roundF64 r 1).1).1 * 1000000000)
    (roundF64 (roundF64 r 1).2 (roundF64 r 1).1).2 (Nat.mul_pos hy1 (by norm_num)) hy2
  have hr' : (0 : ℚ) < r := by exact_mod_cast hr
  have eZ : sleepFloat r = roundF64 ((roundF64 (roundF64 r 1).2 (roundF64 r 1).1).1 * 1000000000)
      (roundF64 (roundF64 r 1).2 (roundF64 r 1).1).2 := by
    unfold sleepFloat; simp only
  rw [← eZ] at hzl hzu
  generalize fracVal (sleepFloat r) = Z at hzl hzu ⊢
  have hX : (0 : ℚ) < fracVal (roundF64 r 1) := by
    unfold fracVal; exact div_pos (by exact_mod_cast hx1) (by exact_mod_cast hx2)
  have hY : (0 : ℚ) < fracVal (roundF64 (roundF64 r 1).2 (roundF64 r 1).1) := by
    unfold fracVal; exact div_pos (by exact_mod_cast hy1) (by exact_mod_cast hy2)
  have eX : (((roundF64 r 1).2 : ℚ) / ((roundF64 r 1).1 : ℚ)) = (fracVal (roundF64 r 1))⁻¹ := by
    unfold fracVal; rw [inv_div]
  have eY : (((roundF64 (roundF64 r 1).2 (roundF64 r 1).1).1 * 1000000000 : ℕ) : ℚ) /
      ((roundF64 (roundF64 r 1).2 (roundF64 r 1).1).2 : ℚ) =
      fracVal (roundF64 (roundF64 r 1).2 (roundF64 r 1).1) * 10 ^ 9 := by
    unfold fracVal; push_cast; ring
  rw [eX] at hyl hyu
  rw [eY] at hzl hzu
  generalize fracVal (roundF64 (roundF64 r 1).2 (roundF64 r 1).1) = Y at hyl hyu hzl hzu hY
  generalize fracVal (roundF64 r 1) = X at hxl hxu hyl hyu hX
  simp only [Nat.cast_one, div_one] at hxl hxu
  have hu1 : (0 : ℚ) < 1 - 1 / 2 ^ 53 := by norm_num
  have hu2 : (0 : ℚ) < 1 + 1 / 2 ^ 53 := by norm_num
  -- `Y * X` lies between `1 - u` and `1 + u`
  have hyl' : (1 - 1 / 2 ^ 53) ≤ Y * X := by
    have := mul_le_mul_of_nonneg_right hyl hX.le
    rwa [mul_assoc, inv_mul_cancel₀ hX.ne', mul_one] at this
  have hyu' : Y * X ≤ (1 + 1 / 2 ^ 53) := by
    have := mul_le_mul_of_nonneg_right hyu hX.le
    rwa [mul_assoc, inv_mul_cancel₀ hX.ne', mul_one] at this
  constructor
  · calc (1 - 1 / 2 ^ 53) ^ 2 * 10 ^ 9 = (1 - 1 / 2 ^ 53) * (1 - 1 / 2 ^ 53) * 10 ^ 9 := by ring
      _ ≤ (1 - 1 / 2 ^ 53) * (Y * X) * 10 ^ 9 := by gcongr
      _ = (1 - 1 / 2 ^ 53) * (Y * 10 ^ 9) * X := by ring
      _ ≤ Z * X := by gcongr
      _ ≤ Z * ((1 + 1 / 2 ^ 53) * r) := by
        have hZ : 0 ≤ Z := le_trans (by positivity) hzl
        gcongr
  · have hZ : 0 ≤ Z := le_trans (by positivity) hzl
    calc Z * ((1 - 1 / 2 ^ 53) * r) ≤ Z * X := by gcongr
      _ ≤ (1 + 1 / 2 ^ 53) * (Y * 10 ^ 9) * X := by gcongr
      _ = (1 + 1 / 2 ^ 53) * (Y * X) * 10 ^ 9 := by ring
      _ ≤ (1 + 1 / 2 ^ 53) * (1 + 1 / 2 ^ 53) * 10 ^ 9 := by gcongr
      _ = (1 + 1 / 2 ^ 53) ^ 2 * 10 ^ 9 := by ring

theorem sleepNat_pos_of_lt (r : Nat) (hr : 0 < r) (h : r < 10 ^ 9) : 0 < sleepNat r := by
  obtain ⟨h1, h2⟩ := sleepFloat_pos r hr
  obtain ⟨hl, -⟩ := sleepFloat_val r hr
  rw [sleepNat_eq]
  apply Nat.div_pos _ h2
  by_contra hlt
  push_neg at hlt
  have hlt' : fracVal (sleepFloat r) < 1 := by
    unfold fracVal
    rw [div_lt_one (by exact_mod_cast h2)]
    exact_mod_cast hlt
  have hr' : (r : ℚ) ≤ 10 ^ 9 - 1 := by
    have : r + 1 ≤ 10 ^ 9 := h
    have : ((r + 1 : ℕ) : ℚ) ≤ ((10 ^ 9 : ℕ) : ℚ) := by exact_mod_cast this
    push_cast at this
    linarith
  have hr0 : (0 : ℚ) < r := by exact_mod_cast hr
  have : fracVal (sleepFloat r) * ((1 + 1 / 2 ^ 53) * r) < 1 * ((1 + 1 / 2 ^ 53) * (10 ^ 9 - 1)) := by
    apply mul_lt_mul hlt' _ (by positivity) (by norm_num)
    gcongr
  norm_num at this hl
  linarith

theorem sleepNat_le (r : Nat) (hr : 0 < r) : sleepNat r ≤ 10 ^ 9 := by
  obtain ⟨h1, h2⟩ := sleepFloat_pos r hr
  obtain ⟨-, hu⟩ := sleepFloat_val r hr
  rw [sleepNat_eq]
  apply Nat.le_of_lt_succ
  rw [Nat.div_lt_iff_lt_mul h2]
  by_contra hge
  push_neg at hge
  have hge' : (10 ^ 9 + 1 : ℚ) ≤ fracVal (sleepFloat r) := by
    unfold fracVal
    rw [le_div_iff₀ (by exact_mod_cast h2)]
    exact_mod_cast hge
  have hr1 : (1 : ℚ) ≤ r := by exact_mod_cast hr
  have : (10 ^ 9 + 1 : ℚ) * ((1 - 1 / 2 ^ 53) * 1) ≤ fracVal (sleepFloat r) * ((1 - 1 / 2 ^ 53) * r) := by
    apply mul_le_mul hge' _ (by norm_num) (le_trans (by norm_num) hge')
    gcongr
  norm_num at this hu
  linarith

theorem sleepNat_zero_of_gt (r : Nat) (h : 10 ^ 9 < r) : sleepNat r = 0 := by
  have hr : 0 < r := by omega
  obtain ⟨h1, h2⟩ := sleepFloat_pos r hr
  obtain ⟨-, hu⟩ := sleepFloat_val r hr
  rw [sleepNat_eq]
  apply Nat.div_eq_of_lt
  by_contra hge
  push_neg at hge
  have hge' : (1 : ℚ) ≤ fracVal (sleepFloat r) := by
    unfold fracVal
    rw [le_div_iff₀ (by exact_mod_cast h2), one_mul]
    exact_mod_cast hge
  have hr1 : (10 ^ 9 + 1 : ℚ) ≤ r := by exact_mod_cast h
  have : (1 : ℚ) * ((1 - 1 / 2 ^ 53) * (10 ^ 9 + 1)) ≤ fracVal (sleepFloat r) * ((1 - 1 / 2 ^ 53) * r) := by
    apply mul_le_mul hge' _ (by norm_num) (le_trans (by norm_num) hge')
    gcongr
  norm_num at this hu
  linarith

/-! ## The interval: `sleepDuration` -/

theorem sleepNat_pos_iff (r : Nat) (hr : 0 < r) : 0 < sleepNat r ↔ r ≤ 10 ^ 9 := by
  constructor
  · intro h
    by_contra hgt
    push_neg at hgt
    rw [sleepNat_zero_of_gt r hgt] at h
    exact absurd h (lt_irrefl 0)
  · intro h
    rcases Nat.lt_or_ge r (10 ^ 9) with hlt | hge
    · exact sleepNat_pos_of_lt r hr hlt
    · have : r = 1000000000 := by norm_num at h hge; omega
      subst this
      decide

theorem sleepDuration_of_pos (infDuration baudrate : Int) (h : 0 < baudrate) :
    sleepDuration infDuration baudrate = (sleepNat baudrate.toNat : Int) := by
  simp [sleepDuration, h]

theorem sleepDuration_range (infDuration baudrate : Int) (h : 0 < baudrate) :
    0 ≤ sleepDuration infDuration baudrate ∧ sleepDuration infDuration baudrate ≤ maxDuration := by
  rw [sleepDuration_of_pos _ _ h]
  have := sleepNat_le baudrate.toNat (by omega)
  simp only [maxDuration]
  norm_num at this ⊢
  omega

/-! ## The pump: the claims -/

/-- C1: `copyWithDelay` preserves byte order.  Whatever fails, the bytes written to the
destination are a prefix of the source bytes `s`; and when no read before the end of `s` and
no write fails, the bytes written are exactly `s`, in order, each once. -/
theorem copyWithDelay_preserves_order (env : PumpEnv) (delay : Int) (s : List Byte) :
    (copyWithDelay env delay s).written <+: s ∧
    ((∀ k, k < s.length → env.readOk k = true ∧ env.writeOk k = true) →
      (copyWithDelay env delay s).written = s) := by
  constructor
  · obtain ⟨t, ht, hw⟩ := copyLoop_written_prefix env delay s 0 PumpState.init
    have : (copyWithDelay env delay s).written = t := by
      rw [copyWithDelay, hw]
      rfl
    rw [this]
    exact ht
  · intro hok
    have h := (copyLoop_all_ok env delay s 0 PumpState.init (by simpa using hok)).1
    simpa [copyWithDelay, PumpState.init] using h

/-- The bytes of `"abcdef"` pass an instant sink unchanged (C1 at a concrete input). -/
theorem copyWithDelay_preserves_order_witness :
    (copyWithDelay (PumpEnv.reliable fun _ => 0) 104166 [97, 98, 99, 100, 101, 102]).written
      = [97, 98, 99, 100, 101, 102] :=
  (copyWithDelay_preserves_order (PumpEnv.reliable fun _ => 0) 104166
    [97, 98, 99, 100, 101, 102]).2 (fun _ _ => ⟨rfl, rfl⟩)

/-- C2 fails as stated.  With the rate 0 the pump is handed the interval that the conversion
of `+Inf` yields, `-1 << 63` on amd64; a transfer that took 1 ns has `elapsed ≥ delay`, yet
the subtraction `delay - elapsed` wraps around and the pump sleeps for `1<<63 - 1` ns. -/
theorem sleep_rule_counterexample :
    sleepDuration minDuration 0 = minDuration ∧
      (copyWithDelay (PumpEnv.reliable fun _ => 1) minDuration [97]).log =
        [Iteration.transferred 97 1 1 (some 9223372036854775807),
         Iteration.failed Side.read] ∧
      minDuration ≤ (1 : Int) ∧ ¬ ((1 : Int) < minDuration) := by
  decide

/-- C2, amended: for every interval `delay` (any `time.Duration`), every byte that
`copyWithDelay` transfers, with measured transfer time `e`, is followed by a sleep request
that is never negative or zero; and whenever the subtraction `delay - e` does not overflow
`int64` (always so for `delay ≥ -1` ns), the pump sleeps exactly `delay - e` when `e < delay`
and does not sleep at all when `e ≥ delay`. -/
theorem copyWithDelay_sleep_rule (env : PumpEnv) (delay : Int) (s : List Byte)
    (hmax : delay ≤ maxDuration) (i : Nat) (b : Byte) (a e : Int) (sl : Option Int)
    (h : (copyWithDelay env delay s).log[i]? = some (Iteration.transferred b a e sl)) :
    e = sub (env.xfer i) ∧ (∀ d, sl = some d → 0 < d) ∧
      (-1 ≤ delay → minDuration ≤ delay - e) ∧
      (minDuration ≤ delay - e →
        (e < delay → sl = some (delay - e)) ∧ (delay ≤ e → sl = none)) := by
  have hkey := copyLoop_entries env delay s 0 PumpState.init rfl
    (by intro i b a e sl hi; simp [PumpState.init] at hi) i b a e sl h
  obtain ⟨he, hs⟩ := hkey
  have h₂ := sub_nonneg (env.xfer i)
  have h₃ := sub_le_max (env.xfer i)
  rw [← he] at h₂ h₃
  refine ⟨he, ?_, ?_, ?_⟩
  · intro d hd
    rw [hs] at hd
    split_ifs at hd with hpos
    · injection hd with hd
      omega
  · intro hd
    simp only [minDuration, maxDuration] at *
    omega
  · intro hov
    have hw : wrap64 (delay - e) = delay - e := wrap64_eq _ hov (by omega)
    rw [hw] at hs
    constructor
    · intro hlt
      rw [hs, if_pos (by omega)]
    · intro hle
      rw [hs, if_neg (by omega)]

/-- A transfer of 50 ms against an interval of 10 ms is followed by no sleep (C2, amended, at
a concrete input). -/
theorem copyWithDelay_sleep_rule_witness :
    (10000000 : Int) ≤ maxDuration ∧
    (copyWithDelay (PumpEnv.reliable fun _ => 50000000) 10000000 [97]).log[0]? =
        some (Iteration.transferred 97 50000000 50000000 none) ∧
      ((50000000 : Int) = sub ((PumpEnv.reliable fun _ => 50000000).xfer 0) ∧
        (∀ d, (none : Option Int) = some d → 0 < d) ∧
        ((-1 : Int) ≤ 10000000 → minDuration ≤ (10000000 : Int) - 50000000) ∧
        (minDuration ≤ (10000000 : Int) - 50000000 →
          ((50000000 : Int) < 10000000 → (none : Option Int) = some (10000000 - 50000000)) ∧
          ((10000000 : Int) ≤ 50000000 → (none : Option Int) = none))) :=
  ⟨by decide, by decide,
    copyWithDelay_sleep_rule (PumpEnv.reliable fun _ => 50000000) 10000000 [97] (by decide)
      0 97 50000000 50000000 none (by decide)⟩

/-- C6: on a source of `N` bytes followed by end-of-stream, with no read or write failing
before, `copyWithDelay` returns after exactly `N` transfers followed by exactly one failed
read: the failed read is the last thing the pump does, and all `N` bytes were written. -/
theorem copyWithDelay_stops_at_end (env : PumpEnv) (delay : Int) (s : List Byte)
    (hok : ∀ k, k < s.length → env.readOk k = true ∧ env.writeOk k = true) :
    ∃ its, (copyWithDelay env delay s).log = its ++ [Iteration.failed Side.read] ∧
      its.length = s.length ∧ (∀ it ∈ its, it.isTransfer = true) ∧
      (copyWithDelay env delay s).written = s := by
  obtain ⟨hw, its, hl, hlen, hall⟩ :=
    copyLoop_all_ok env delay s 0 PumpState.init (by simpa using hok)
  refine ⟨its, ?_, hlen, hall, ?_⟩
  · simpa [copyWithDelay, PumpState.init] using hl
  · simpa [copyWithDelay, PumpState.init] using hw

/-- Three bytes, then end-of-stream: three transfers and one failed read (C6 at a concrete
input). -/
theorem copyWithDelay_stops_at_end_witness :
    ∃ its, (copyWithDelay (PumpEnv.reliable fun _ => 0) 5 [1, 2, 3]).log =
        its ++ [Iteration.failed Side.read] ∧
      its.length = [(1 : Byte), 2, 3].length ∧ (∀ it ∈ its, it.isTransfer = true) ∧
      (copyWithDelay (PumpEnv.reliable fun _ => 0) 5 [1, 2, 3]).written = [1, 2, 3] :=
  copyWithDelay_stops_at_end (PumpEnv.reliable fun _ => 0) 5 [1, 2, 3]
    (fun _ _ => ⟨rfl, rfl⟩)

/-! ## The interval and the rate: the claims -/

/-- C5 fails as stated: the rate 2000000000 is a positive `int` (also a positive `int32`),
and the interval computed from it is 0 ns. -/
theorem sleepDuration_zero_counterexample :
    (0 : Int) < 2000000000 ∧ (2000000000 : Int) < 2 ^ 31 ∧
      ¬ (0 < sleepDuration minDuration 2000000000) := by
  decide

/-- C5, amended: for a positive rate `R` the interval is strictly positive exactly when
`R ≤ 10 ^ 9` (for larger rates it is 0); the rate 9600 gives 104166 ns. -/
theorem sleepDuration_pos_iff (infDuration R : Int) (hR : 0 < R) :
    (0 < sleepDuration infDuration R ↔ R ≤ 10 ^ 9) ∧
      (10 ^ 9 < R → sleepDuration infDuration R = 0) ∧
      sleepDuration infDuration 9600 = 104166 := by
  have hpos : 0 < R.toNat := by omega
  have hiff := sleepNat_pos_iff R.toNat hpos
  rw [sleepDuration_of_pos _ _ hR]
  have hR' : ((R.toNat : Nat) : Int) = R := Int.toNat_of_nonneg hR.le
  have hle : R.toNat ≤ 10 ^ 9 ↔ R ≤ 10 ^ 9 := by
    constructor
    · intro h
      have : ((R.toNat : Nat) : Int) ≤ ((10 ^ 9 : Nat) : Int) := by exact_mod_cast h
      rw [hR'] at this
      exact_mod_cast this
    · intro h
      have : ((R.toNat : Nat) : Int) ≤ ((10 ^ 9 : Nat) : Int) := by
        rw [hR']; exact_mod_cast h
      exact_mod_cast this
  refine ⟨?_, ?_, by rw [sleepDuration_of_pos _ _ (by decide)]; decide⟩
  · rw [← hle, ← hiff]
    exact Int.natCast_pos
  · intro hgt
    have : ¬ 0 < sleepNat R.toNat := by
      rw [hiff, hle]; omega
    have : sleepNat R.toNat = 0 := by omega
    rw [this]
    rfl

/-- The default rate 9600 has a positive interval (C5, amended, at a concrete input). -/
theorem sleepDuration_pos_iff_witness :
    (0 : Int) < 9600 ∧
      ((0 < sleepDuration minDuration 9600 ↔ (9600 : Int) ≤ 10 ^ 9) ∧
        ((10 : Int) ^ 9 < 9600 → sleepDuration minDuration 9600 = 0) ∧
        sleepDuration minDuration 9600 = 104166) :=
  ⟨by decide, sleepDuration_pos_iff minDuration 9600 (by decide)⟩

/-- C3 fails as stated.  At rate 3 the second of two bytes is delivered 333333333 ns after
the start, less than `(2 - 1) / 3` s; and at rate 600000000 a complete run over three bytes
takes 3 ns, less than `(3 - 1) / 600000000` s.  (A time of `t` ns is at least `n / R` s
exactly when `n * 10 ^ 9 ≤ t * R`.) -/
theorem pump_rate_counterexample :
    ((copyWithDelay (PumpEnv.reliable fun _ => 0) (sleepDuration minDuration 3) [0, 0]).log
        = [Iteration.transferred 0 0 0 (some 333333333),
           Iteration.transferred 0 333333333 0 (some 333333333),
           Iteration.failed Side.read] ∧
      ¬ ((2 - 1) * 10 ^ 9 ≤ (333333333 : Int) * 3)) ∧
    ((copyWithDelay (PumpEnv.reliable fun _ => 0) (sleepDuration minDuration 600000000)
        [0, 0, 0]).written = [0, 0, 0] ∧
      (copyWithDelay (PumpEnv.reliable fun _ => 0) (sleepDuration minDuration 600000000)
        [0, 0, 0]).clock = 3 ∧
      ¬ ((3 - 1) * 10 ^ 9 ≤ (3 : Int) * 600000000)) := by
  have h₁ : sleepDuration minDuration 3 = 333333333 := by decide
  have h₂ : sleepDuration minDuration 600000000 = 1 := by decide
  rw [h₁, h₂]
  decide

/-- C3, amended: for a rate `R > 0` and `N ≥ 1` bytes relayed without an I/O error, with `d`
the interval in whole nanoseconds that `slowterm` computes from `R`, the last byte is
delivered at least `(N - 1) * d` ns after the pump started, and the pump runs for at least
`N * d` ns. -/
theorem pump_rate_bound (env : PumpEnv) (infDuration R : Int) (s : List Byte) (hR : 0 < R)
    (hN : 1 ≤ s.length)
    (hok : ∀ k, k < s.length → env.readOk k = true ∧ env.writeOk k = true) :
    ∃ b a e sl,
      (copyWithDelay env (sleepDuration infDuration R) s).log[s.length - 1]? =
        some (Iteration.transferred b a e sl) ∧
      ((s.length : Int) - 1) * sleepDuration infDuration R ≤ a ∧
      a ≤ (copyWithDelay env (sleepDuration infDuration R) s).clock ∧
      (s.length : Int) * sleepDuration infDuration R ≤
        (copyWithDelay env (sleepDuration infDuration R) s).clock := by
  obtain ⟨h₀, h₁⟩ := sleepDuration_range infDuration R hR
  generalize sleepDuration infDuration R = d at h₀ h₁ ⊢
  obtain ⟨hw, its, hl, hlen, hall⟩ :=
    copyLoop_all_ok env d s 0 PumpState.init (by simpa using hok)
  obtain ⟨hclock, hent⟩ := copyLoop_timing env d h₀ h₁ s 0 PumpState.init rfl
    (by simp [PumpState.init]) (by intro i b a e sl hi; simp [PumpState.init] at hi)
  have hlog : (copyWithDelay env d s).log = its ++ [Iteration.failed Side.read] := by
    simpa [copyWithDelay, PumpState.init] using hl
  have hlt : s.length - 1 < its.length := by omega
  have hget : (copyWithDelay env d s).log[s.length - 1]? = some (its[s.length - 1]) := by
    rw [hlog, List.getElem?_append_left hlt, List.getElem?_eq_getElem hlt]
  have hmem : its[s.length - 1] ∈ its := List.getElem_mem hlt
  have htr := hall _ hmem
  cases hit : its[s.length - 1] with
  | failed side => rw [hit] at htr; simp [Iteration.isTransfer] at htr
  | transferred b a e sl =>
    rw [hit] at hget
    have := hent (s.length - 1) b a e sl hget
    refine ⟨b, a, e, sl, hget, ?_, this.2, ?_⟩
    · have hc : ((s.length - 1 : Nat) : Int) = (s.length : Int) - 1 := by omega
      rw [← hc]
      exact this.1
    · have hws : (copyWithDelay env d s).written = s := by
        simpa [copyWithDelay, PumpState.init] using hw
      have := hclock
      simp only [copyWithDelay] at hws ⊢
      rw [hws] at this
      exact this

/-- Six bytes at the default rate 9600 (C3, amended, at a concrete input). -/
theorem pump_rate_bound_witness :
    (0 : Int) < 9600 ∧ 1 ≤ [(97 : Byte), 98, 99, 100, 101, 102].length ∧
    ∃ b a e sl,
      (copyWithDelay (PumpEnv.reliable fun _ => 0) (sleepDuration minDuration 9600)
          [97, 98, 99, 100, 101, 102]).log[[(97 : Byte), 98, 99, 100, 101, 102].length - 1]? =
        some (Iteration.transferred b a e sl) ∧
      (([(97 : Byte), 98, 99, 100, 101, 102].length : Int) - 1) *
          sleepDuration minDuration 9600 ≤ a ∧
      a ≤ (copyWithDelay (PumpEnv.reliable fun _ => 0) (sleepDuration minDuration 9600)
          [97, 98, 99, 100, 101, 102]).clock ∧
      ([(97 : Byte), 98, 99, 100, 101, 102].length : Int) * sleepDuration minDuration 9600 ≤
        (copyWithDelay (PumpEnv.reliable fun _ => 0) (sleepDuration minDuration 9600)
          [97, 98, 99, 100, 101, 102]).clock :=
  ⟨by decide, by decide,
    pump_rate_bound (PumpEnv.reliable fun _ => 0) minDuration 9600 [97, 98, 99, 100, 101, 102]
      (by decide) (by decide) (fun _ _ => ⟨rfl, rfl⟩)⟩

/-! ## The session: the three ways `slowterm` ends -/

theorem resolveCmd_ne_nil (vals : List String) (shell : String) : resolveCmd vals shell ≠ [] := by
  unfold resolveCmd
  split_ifs with h₁ h₂
  · intro h; rw [h] at h₁; simp at h₁
  · simp
  · simp [defaultCmd]

theorem slowterm_start_failed (env : Env) (baudrate : Int) (cmd : List String) (err : Error)
    (hcmd : cmd ≠ []) (hstart : env.ptyStart cmd = some err) :
    slowterm env baudrate cmd = ⟨[Effect.ptyStart cmd], Outcome.returned (some err)⟩ := by
  cases cmd with
  | nil => exact absurd rfl hcmd
  | cons c args => simp only [slowterm, hstart]

theorem slowterm_raw_failed (env : Env) (baudrate : Int) (cmd : List String) (err : Error)
    (hcmd : cmd ≠ []) (hstart : env.ptyStart cmd = none)
    (hraw : env.makeRaw = Except.error err) :
    slowterm env baudrate cmd =
      ⟨[Effect.ptyStart cmd, Effect.signalNotify, Effect.goResize, Effect.sendWinch,
        Effect.makeRaw, Effect.signalStop, Effect.closeCh, Effect.ptyClose],
        Outcome.panicked err⟩ := by
  cases cmd with
  | nil => exact absurd rfl hcmd
  | cons c args => simp [slowterm, hstart, hraw, runDeferred]

theorem slowterm_completed (env : Env) (baudrate : Int) (cmd : List String)
    (oldState : TermState) (hcmd : cmd ≠ []) (hstart : env.ptyStart cmd = none)
    (hraw : env.makeRaw = Except.ok oldState) :
    slowterm env baudrate cmd =
      ⟨[Effect.ptyStart cmd, Effect.signalNotify, Effect.goResize, Effect.sendWinch,
        Effect.makeRaw, Effect.goCopy (sleepDuration env.infDuration baudrate),
        Effect.copy (sleepDuration env.infDuration baudrate)
          (copyWithDelay env.pump (sleepDuration env.infDuration baudrate) env.ptyOut),
        Effect.restore oldState, Effect.signalStop, Effect.closeCh, Effect.ptyClose],
        Outcome.returned none⟩ := by
  cases cmd with
  | nil => exact absurd rfl hcmd
  | cons c args => simp [slowterm, hstart, hraw, runDeferred]

theorem main_run (env : Env) (inv : Invocation) (hhelp : inv.help = false) :
    (main env inv).effects =
      (slowterm env inv.baudrate (resolveCmd inv.args inv.shell)).effects ++
        match (slowterm env inv.baudrate (resolveCmd inv.args inv.shell)).outcome with
        | Outcome.returned (some err) => [Effect.printErr err]
        | _ => [] := by
  simp only [main, hhelp]
  generalize slowterm env inv.baudrate (resolveCmd inv.args inv.shell) = run
  rcases run with ⟨eff, out⟩
  cases out with
  | returned e => cases e <;> simp
  | panicked m => simp

/-! ## The session: the claims -/

/-- C4 fails as stated: with the rate -1, and with the rate 0, `main` starts the session,
subscribes to the window-size signal, enters raw mode and reports no error. -/
theorem nonpositive_rate_counterexample :
    main (Env.good []) ⟨-1, false, ["/bin/sh"], ""⟩ =
      ⟨[Effect.ptyStart ["/bin/sh"], Effect.signalNotify, Effect.goResize, Effect.sendWinch,
        Effect.makeRaw, Effect.goCopy (-1000000000),
        Effect.copy (-1000000000) ⟨[], 0, [Iteration.failed Side.read]⟩,
        Effect.restore 7, Effect.signalStop, Effect.closeCh, Effect.ptyClose],
        Outcome.returned none⟩ ∧
    main (Env.good []) ⟨0, false, ["/bin/sh"], ""⟩ =
      ⟨[Effect.ptyStart ["/bin/sh"], Effect.signalNotify, Effect.goResize, Effect.sendWinch,
        Effect.makeRaw, Effect.goCopy minDuration,
        Effect.copy minDuration ⟨[], 0, [Iteration.failed Side.read]⟩,
        Effect.restore 7, Effect.signalStop, Effect.closeCh, Effect.ptyClose],
        Outcome.returned none⟩ := by
  decide

/-- C4, amended: the rate is not validated, and no rate is rejected.  For every rate, zero
and negative ones included, and every command, `main` first calls `pty.Start`.  If that fails,
`main` prints the error on standard error, has done nothing else, and returns.  If it
succeeds, the run goes on to subscribe to the window-size signal, spawn and trigger the resize
forwarder and call `term.MakeRaw`, whatever the rate: when `term.MakeRaw` fails the run
panics with its error after the deferred `signal.Stop`, `close(ch)` and `ptmx.Close()`; when
it succeeds the session runs to its end with the interval computed from the rate, is torn
down, and `main` returns without printing an error. -/
theorem rate_not_validated (env : Env) (inv : Invocation) (hhelp : inv.help = false) :
    (∀ err, env.ptyStart (resolveCmd inv.args inv.shell) = some err →
      main env inv =
        ⟨[Effect.ptyStart (resolveCmd inv.args inv.shell), Effect.printErr err],
          Outcome.returned none⟩) ∧
    (∀ err, env.ptyStart (resolveCmd inv.args inv.shell) = none →
      env.makeRaw = Except.error err →
      main env inv =
        ⟨[Effect.ptyStart (resolveCmd inv.args inv.shell), Effect.signalNotify,
          Effect.goResize, Effect.sendWinch, Effect.makeRaw, Effect.signalStop,
          Effect.closeCh, Effect.ptyClose], Outcome.panicked err⟩) ∧
    (∀ oldState, env.ptyStart (resolveCmd inv.args inv.shell) = none →
      env.makeRaw = Except.ok oldState →
      main env inv =
        ⟨[Effect.ptyStart (resolveCmd inv.args inv.shell), Effect.signalNotify,
          Effect.goResize, Effect.sendWinch, Effect.makeRaw,
          Effect.goCopy (sleepDuration env.infDuration inv.baudrate),
          Effect.copy (sleepDuration env.infDuration inv.baudrate)
            (copyWithDelay env.pump (sleepDuration env.infDuration inv.baudrate) env.ptyOut),
          Effect.restore oldState, Effect.signalStop, Effect.closeCh, Effect.ptyClose],
          Outcome.returned none⟩) := by
  have hcmd := resolveCmd_ne_nil inv.args inv.shell
  refine ⟨?_, ?_, ?_⟩
  · intro err hstart
    simp only [main, hhelp, slowterm_start_failed env _ _ err hcmd hstart]
    rfl
  · intro err hstart hraw
    simp only [main, hhelp, slowterm_raw_failed env _ _ err hcmd hstart hraw]
    rfl
  · intro oldState hstart hraw
    simp only [main, hhelp, slowterm_completed env _ _ oldState hcmd hstart hraw]
    rfl

/-- The rate -5 with a working pty and terminal: the session runs, with the interval
-200000000 ns (C4, amended, at a concrete input). -/
theorem rate_not_validated_witness :
    (⟨-5, false, [], "/bin/zsh"⟩ : Invocation).help = false ∧
    main (Env.good []) ⟨-5, false, [], "/bin/zsh"⟩ =
      ⟨[Effect.ptyStart (resolveCmd [] "/bin/zsh"), Effect.signalNotify,
        Effect.goResize, Effect.sendWinch, Effect.makeRaw,
        Effect.goCopy (sleepDuration (Env.good []).infDuration (-5)),
        Effect.copy (sleepDuration (Env.good []).infDuration (-5))
          (copyWithDelay (Env.good []).pump (sleepDuration (Env.good []).infDuration (-5))
            (Env.good []).ptyOut),
        Effect.restore 7, Effect.signalStop, Effect.closeCh, Effect.ptyClose],
        Outcome.returned none⟩ :=
  ⟨rfl, (rate_not_validated (Env.good []) ⟨-5, false, [], "/bin/zsh"⟩ rfl).2.2 7 rfl rfl⟩

/-- C7: when `pty.Start` fails, `slowterm` returns its error, `main` prints it on standard
error, and the run consists of these two effects only: `term.MakeRaw` was not called, the
resize forwarder was neither subscribed nor spawned, and no pump was started. -/
theorem start_failure_is_clean (env : Env) (inv : Invocation) (err : Error)
    (hhelp : inv.help = false)
    (hstart : env.ptyStart (resolveCmd inv.args inv.shell) = some err) :
    (slowterm env inv.baudrate (resolveCmd inv.args inv.shell)).outcome =
        Outcome.returned (some err) ∧
      (main env inv).effects =
        [Effect.ptyStart (resolveCmd inv.args inv.shell), Effect.printErr err] ∧
      Effect.makeRaw ∉ (main env inv).effects ∧
      Effect.signalNotify ∉ (main env inv).effects ∧
      Effect.goResize ∉ (main env inv).effects ∧
      ∀ e ∈ (main env inv).effects, e.isPump = false := by
  have hcmd := resolveCmd_ne_nil inv.args inv.shell
  have hs := slowterm_start_failed env inv.baudrate _ err hcmd hstart
  have hm : (main env inv).effects =
      [Effect.ptyStart (resolveCmd inv.args inv.shell), Effect.printErr err] := by
    rw [main_run env inv hhelp, hs]
    rfl
  rw [hm, hs]
  refine ⟨rfl, rfl, by simp, by simp, by simp, ?_⟩
  intro e he
  simp only [List.mem_cons, List.mem_singleton, List.not_mem_nil, or_false] at he
  rcases he with rfl | rfl <;> rfl

/-- A pty that cannot be allocated (C7 at a concrete input). -/
theorem start_failure_is_clean_witness :
    (main (Env.noPty "no pty") ⟨9600, false, ["top"], ""⟩).effects =
      [Effect.ptyStart ["top"], Effect.printErr "no pty"] :=
  (start_failure_is_clean (Env.noPty "no pty") ⟨9600, false, ["top"], ""⟩ "no pty" rfl rfl).2.1

/-- The two branches of the command resolution on which code and help text agree: positional
arguments win, and without them a non-empty `$SHELL` is the command. -/
theorem resolveCmd_args_or_shell (vals : List String) (shell : String) :
    (vals ≠ [] → resolveCmd vals shell = vals) ∧
      (vals = [] → shell ≠ "" → resolveCmd vals shell = [shell]) ∧
      (vals = [] → shell = "" → resolveCmd vals shell = defaultCmd) := by
  refine ⟨?_, ?_, ?_⟩
  · intro h
    have : vals.length > 0 := List.length_pos.2 h
    simp [resolveCmd, this]
  · intro h hs
    simp [resolveCmd, h, hs]
  · intro h hs
    simp [resolveCmd, h, hs]

/-- C8: without positional arguments and with an empty `$SHELL`, `main` runs `/bin/bash`,
while the help text that `printHelp` prints promises `/usr/bin/bash`. -/
theorem default_shell_differs_from_help :
    resolveCmd [] "" = ["/bin/bash"] ∧ resolveCmd [] "" ≠ ["/usr/bin/bash"] ∧
      "\tcurrent user default shell (from $SHELL) or /usr/bin/bash if $SHELL is\n" ∈
        printHelp := by
  decide

/-- C9: `term.Restore` is called exactly once, with the state `term.MakeRaw` returned and
right after the output pump has stopped, in every run of `slowterm` in which `term.MakeRaw`
succeeded; and it is not called at all in a run in which `term.MakeRaw` was not reached (no
command, or `pty.Start` failed) or failed. -/
theorem restore_exactly_once (env : Env) (baudrate : Int) (cmd : List String) :
    (∀ oldState, cmd ≠ [] → env.ptyStart cmd = none → env.makeRaw = Except.ok oldState →
      (slowterm env baudrate cmd).effects.filter Effect.isRestore =
          [Effect.restore oldState] ∧
        ∃ before delay run after,
          (slowterm env baudrate cmd).effects =
            before ++ [Effect.copy delay run, Effect.restore oldState] ++ after) ∧
    ((cmd = [] ∨ (∃ err, env.ptyStart cmd = some err) ∨
        ∃ err, env.makeRaw = Except.error err) →
      (slowterm env baudrate cmd).effects.filter Effect.isRestore = []) := by
  constructor
  · intro oldState hcmd hstart hraw
    rw [slowterm_completed env baudrate cmd oldState hcmd hstart hraw]
    refine ⟨by simp [Effect.isRestore], ?_⟩
    exact ⟨[Effect.ptyStart cmd, Effect.signalNotify, Effect.goResize, Effect.sendWinch,
      Effect.makeRaw, Effect.goCopy (sleepDuration env.infDuration baudrate)], _, _,
      [Effect.signalStop, Effect.closeCh, Effect.ptyClose], rfl⟩
  · intro h
    rcases Decidable.em (cmd = []) with hnil | hcmd
    · subst hnil
      rfl
    · cases hstart : env.ptyStart cmd with
      | some err =>
        rw [slowterm_start_failed env baudrate cmd err hcmd hstart]
        simp [Effect.isRestore]
      | none =>
        cases hraw : env.makeRaw with
        | error err =>
          rw [slowterm_raw_failed env baudrate cmd err hcmd hstart hraw]
          simp [Effect.isRestore]
        | ok oldState =>
          rcases h with h | ⟨err, h⟩ | ⟨err, h⟩
          · exact absurd h hcmd
          · rw [hstart] at h; cases h
          · rw [hraw] at h; cases h

/-- A session that runs to its end restores the saved state 7 once (C9 at a concrete
input). -/
theorem restore_exactly_once_witness :
    (slowterm (Env.good [97]) 9600 ["/bin/bash"]).effects.filter Effect.isRestore =
      [Effect.restore 7] :=
  ((restore_exactly_once (Env.good [97]) 9600 ["/bin/bash"]).1 7 (by decide) rfl rfl).1

/-- C10 fails as stated: in a successful run the resize forwarder is armed and triggered
before raw mode is engaged, not after, and in the teardown the forwarder is disarmed before
the pty is closed, not after. -/
theorem lifecycle_order_counterexample :
    (slowterm (Env.good [97]) 9600 ["/bin/bash"]).outcome = Outcome.returned none ∧
    (slowterm (Env.good [97]) 9600 ["/bin/bash"]).effects ≠
      [Effect.ptyStart ["/bin/bash"], Effect.makeRaw, Effect.signalNotify, Effect.goResize,
        Effect.sendWinch, Effect.goCopy 104166,
        Effect.copy 104166 (copyWithDelay (Env.good [97]).pump 104166 [97]),
        Effect.restore 7, Effect.ptyClose, Effect.signalStop, Effect.closeCh] ∧
    (slowterm (Env.good [97]) 9600 ["/bin/bash"]).effects.indexOf Effect.sendWinch <
      (slowterm (Env.good [97]) 9600 ["/bin/bash"]).effects.indexOf Effect.makeRaw ∧
    (slowterm (Env.good [97]) 9600 ["/bin/bash"]).effects.indexOf Effect.closeCh <
      (slowterm (Env.good [97]) 9600 ["/bin/bash"]).effects.indexOf Effect.ptyClose := by
  have h := slowterm_completed (Env.good [97]) 9600 ["/bin/bash"] 7 (by decide) rfl rfl
  have hd : sleepDuration (Env.good [97]).infDuration 9600 = 104166 := by decide
  rw [hd] at h
  rw [h]
  decide

/-- C10, amended: a successful run of `slowterm` performs, in this order: session start
(`pty.Start`), resize forwarder armed, spawned and triggered once with a synthetic
window-size notification, raw mode engaged, the input pump spawned and the output pump run to
its end, then the teardown: mode restored, resize forwarder disarmed, pty closed. -/
theorem lifecycle_order (env : Env) (baudrate : Int) (cmd : List String)
    (oldState : TermState) (hcmd : cmd ≠ []) (hstart : env.ptyStart cmd = none)
    (hraw : env.makeRaw = Except.ok oldState) :
    slowterm env baudrate cmd =
      ⟨[Effect.ptyStart cmd, Effect.signalNotify, Effect.goResize, Effect.sendWinch,
        Effect.makeRaw, Effect.goCopy (sleepDuration env.infDuration baudrate),
        Effect.copy (sleepDuration env.infDuration baudrate)
          (copyWithDelay env.pump (sleepDuration env.infDuration baudrate) env.ptyOut),
        Effect.restore oldState, Effect.signalStop, Effect.closeCh, Effect.ptyClose],
        Outcome.returned none⟩ :=
  slowterm_completed env baudrate cmd oldState hcmd hstart hraw

/-- The order of a session at the default rate (C10, amended, at a concrete input). -/
theorem lifecycle_order_witness :
    slowterm (Env.good [97]) 9600 ["/bin/bash"] =
      ⟨[Effect.ptyStart ["/bin/bash"], Effect.signalNotify, Effect.goResize, Effect.sendWinch,
        Effect.makeRaw, Effect.goCopy (sleepDuration (Env.good [97]).infDuration 9600),
        Effect.copy (sleepDuration (Env.good [97]).infDuration 9600)
          (copyWithDelay (Env.good [97]).pump (sleepDuration (Env.good [97]).infDuration 9600)
            (Env.good [97]).ptyOut),
        Effect.restore 7, Effect.signalStop, Effect.closeCh, Effect.ptyClose],
        Outcome.returned none⟩ :=
  lifecycle_order (Env.good [97]) 9600 ["/bin/bash"] 7 (by decide) rfl rfl

end Slowterm
